import Mathlib

/-!
Shallow embedding of the resume-parser/ranker core:
  * `parser.py`   — field extraction heuristics (phone, skills, sections)
  * `ranker.py`   — TF-IDF + skill-overlap ranking engine

Python strings are modelled by Lean `String` (in this toolchain a wrapper
around `List Char`); Python floats by `ℚ` (exact arithmetic, so the
`math.isnan` guard of the source can never fire); Python's stable
`list.sort` by `List.mergeSort`.  The sklearn vectorizer
(`TfidfVectorizer.fit_transform` + `cosine_similarity`) is third-party
library code, not part of the repository: its outcome is abstracted as a
`VecOutcome` value (either failure, which the source catches, or a list of
cosine scores together with the prominent job terms).
-/

/-! ### Python string primitives -/

/-- Model of Python `str.strip()` on the character list: drop leading and
trailing whitespace. -/
def trimChars (cs : List Char) : List Char :=
  ((cs.dropWhile Char.isWhitespace).reverse.dropWhile Char.isWhitespace).reverse

/-- Python `s.strip()`. -/
def pyStrip (s : String) : String := String.mk (trimChars s.toList)

/-- Python `s.lower()` (ASCII model). -/
def pyLower (s : String) : String := String.mk (s.toList.map Char.toLower)

/-- Python `s.split(',')`: split on every comma, keeping empty pieces
(`List.splitOn` has exactly these semantics). -/
def pySplitComma (s : String) : List String :=
  (s.toList.splitOn ',').map String.mk

/-- Comma-joined string form of a skill list (Python `','.join(ls)`),
the storage format the web layer uses for `skills`. -/
def joinComma (ls : List String) : String :=
  String.mk (List.intercalate [','] (ls.map String.toList))

/-! ### `ranker.py` — `_compute_skill_match` (lines 46-66) -/

/-- The normalized set a skill/term list denotes in `_compute_skill_match`:
`set([t.lower().strip() for t in terms if t and isinstance(t, str)])`. -/
def normSet (terms : List String) : Finset String :=
  ((terms.filter (fun t => t ≠ "")).map (fun t => pyStrip (pyLower t))).toFinset

/-- `ResumeRanker._compute_skill_match(job_terms, resume_skills_list)`:
overlap ratio `|common| / |job_set|` clamped to `[0,1]`, with the source's
early-exit guards. -/
def compute_skill_match (job_terms resume_skills_list : List String) : ℚ :=
  if job_terms = [] ∨ resume_skills_list = [] then 0
  else if normSet job_terms = ∅ then 0
  else
    min 1 (max 0
      ((((normSet job_terms ∩ normSet resume_skills_list).card : ℚ)) /
        ((normSet job_terms).card : ℚ)))

/-! ### `ranker.py` — skills-field normalization (lines 91-99) -/

/-- The `skills_list` entry of a candidate dict: the engine accepts a
sequence of strings, a single comma-delimited string, or nothing. -/
inductive SkillsField where
  | noneF : SkillsField
  | str (s : String) : SkillsField
  | list (l : List String) : SkillsField
deriving DecidableEq

/-- Lines 95-99 of `rank_resumes`:
`skl = r.get('skills_list') or []` (falsy becomes `[]`),
a string is split on commas with each part stripped and empty parts
dropped, and the final comprehension keeps only truthy entries. -/
def parseSkills (f : SkillsField) : List String :=
  let skl : List String :=
    match f with
    | .noneF => []
    | .str s =>
      if s = "" then []
      else ((pySplitComma s).map pyStrip).filter (fun t => t ≠ "")
    | .list l => if l = [] then [] else l
  skl.filter (fun t => t ≠ "")

/-! ### `ranker.py` — `rank_resumes` (lines 68-142) -/

/-- Per-candidate input dict of `rank_resumes`. -/
structure ResumeInput where
  id : Int
  raw_text : String
  skills_list : SkillsField
deriving DecidableEq

/-- One output tuple `(resume_id, final_score, {'tfidf': …, 'skill_match': …})`. -/
structure RankEntry where
  id : Int
  final : ℚ
  tfidf : ℚ
  skill_match : ℚ
deriving DecidableEq

/-- Outcome of the third-party vectorization step (lines 104-118):
either the `except` path is taken, or it produces one cosine score per
resume plus the prominent job terms. -/
inductive VecOutcome where
  | fail : VecOutcome
  | ok (tfidf_scores : List ℚ) (job_terms : List String) : VecOutcome

/-- Default `alpha` weight of `ResumeRanker.__init__`. -/
def defaultAlpha : ℚ := 7 / 10

/-- Lines 120-130: the `ranked` list before sorting (in the `except` path,
the `fallback` list of zero scores).  `tfidf_scores[i] if i < len(...) else
0.0` is `List.getD i 0`; `math.isnan` cannot fire over `ℚ`, leaving the
`final_score < 0` clamp. -/
def preRanked (alpha : ℚ) (resumes : List ResumeInput) (jd : String)
    (vec : VecOutcome) : List RankEntry :=
  if resumes = [] ∨ jd = "" then []
  else
    match vec with
    | .ok tfidf_scores job_terms =>
      resumes.enum.map (fun p =>
        let tfidf := tfidf_scores.getD p.1 0
        let skill := compute_skill_match job_terms (parseSkills p.2.skills_list)
        let final0 := alpha * tfidf + (1 - alpha) * skill
        let final := if final0 < 0 then 0 else final0
        ⟨p.2.id, final, tfidf, skill⟩)
    | .fail => resumes.map (fun r => ⟨r.id, 0, 0, 0⟩)

/-- The comparison `ranked.sort(key=lambda x: x[1], reverse=True)` sorts
by: `a` may come before `b` iff `b.final ≤ a.final`. -/
def rankLE (a b : RankEntry) : Bool := decide (b.final ≤ a.final)

/-- `ResumeRanker.rank_resumes`: guards, scoring, stable descending sort
(success path) or the zeroed fallback (exception path). -/
def rank_resumes (alpha : ℚ) (resumes : List ResumeInput) (jd : String)
    (vec : VecOutcome) : List RankEntry :=
  match vec with
  | .ok s t => (preRanked alpha resumes jd (.ok s t)).mergeSort rankLE
  | .fail => preRanked alpha resumes jd .fail

/-! ### `parser.py` — a small backtracking regex engine

The three phone patterns and the whole-word skill patterns use only
literals, character classes, greedy `?`, bounded greedy repetition and
`\b`.  `reMatch` implements Python `re`'s leftmost, greedy, backtracking
semantics for that fragment via continuations: `alt` prefers its left
branch (greedy option = `alt r eps`), and a branch succeeds only if the
whole continuation succeeds. -/

inductive RE where
  | cls (p : Char → Bool) : RE
  | eps : RE
  | seq (a b : RE) : RE
  | alt (a b : RE) : RE
  | bound : RE

/-- Python `\w` (ASCII model): letters, digits, underscore. -/
def isWordChar (c : Char) : Bool := c.isAlphanum || c = '_'

/-- Python `\b`: the two sides of position `i` disagree on wordness. -/
def isBoundary (cs : List Char) (i : Nat) : Bool :=
  (match i with
   | 0 => false
   | j + 1 => (match cs.get? j with | some c => isWordChar c | none => false))
  != (match cs.get? i with | some c => isWordChar c | none => false)

/-- Backtracking matcher: try to match `re` at position `i` of `cs`, then
run the continuation `k` on the end position; first success in Python's
preference order wins. -/
def reMatch : RE → List Char → Nat → (Nat → Option Nat) → Option Nat
  | .cls p, cs, i, k =>
    match cs.get? i with
    | some c => if p c then k (i + 1) else none
    | none => none
  | .eps, _, i, k => k i
  | .seq a b, cs, i, k => reMatch a cs i (fun j => reMatch b cs j k)
  | .alt a b, cs, i, k =>
    (reMatch a cs i k).orElse (fun _ => reMatch b cs i k)
  | .bound, cs, i, k => if isBoundary cs i then k i else none

/-- End position of the preferred match of `re` at position `i`, if any. -/
def matchEnd (re : RE) (cs : List Char) (i : Nat) : Option Nat :=
  reMatch re cs i some

/-- `true` when every string the pattern accepts consumes at least one
character (used to bound the positions a match can start at). -/
def consumes : RE → Bool
  | .cls _ => true
  | .eps => false
  | .seq a b => consumes a || consumes b
  | .alt a b => consumes a && consumes b
  | .bound => false

/-- Scan positions `i, i+1, …` (at most `fuel` of them) for the first
position where the pattern matches: Python `re.search`'s leftmost rule. -/
def searchAux (re : RE) (cs : List Char) : Nat → Nat → Option (Nat × Nat)
  | _, 0 => none
  | i, fuel + 1 =>
    match matchEnd re cs i with
    | some j => some (i, j)
    | none => searchAux re cs (i + 1) fuel

/-- Python `pattern.search(text)`: the leftmost match, as a
`(start, end)` pair. -/
def reSearch (re : RE) (cs : List Char) : Option (Nat × Nat) :=
  searchAux re cs 0 (cs.length + 1)

/-- Literal character. -/
def lit (c : Char) : RE := .cls (fun c' => c' = c)

/-- `\d`. -/
def digitRE : RE := .cls Char.isDigit

/-- Python `\s` (`[ \t\n\r\f\v]`). -/
def isPySpace (c : Char) : Bool :=
  c = ' ' || c = '\t' || c = '\n' || c = '\r' || c = '\x0b' || c = '\x0c'

/-- `[-.\s]`. -/
def sepRE : RE := .cls (fun c => c = '-' || c = '.' || isPySpace c)

/-- Greedy `r?`. -/
def opt (r : RE) : RE := .alt r .eps

/-- `r{n}`: exactly `n` copies. -/
def reps (r : RE) : Nat → RE
  | 0 => .eps
  | n + 1 => .seq r (reps r n)

/-- Greedy `r{0,n}`. -/
def upTo (r : RE) : Nat → RE
  | 0 => .eps
  | n + 1 => .alt (.seq r (upTo r n)) .eps

/-- Greedy `r{m,n}`. -/
def repRange (r : RE) (m n : Nat) : RE := .seq (reps r m) (upTo r (n - m))

/-- `\+91[-.\s]?\d{5}[-.\s]?\d{5}` — country-specific format. -/
def phonePat1 : RE :=
  .seq (lit '+') (.seq (lit '9') (.seq (lit '1')
    (.seq (opt sepRE) (.seq (reps digitRE 5) (.seq (opt sepRE) (reps digitRE 5))))))

/-- `\b0?\d{10}\b` — generic 10-11 digit domestic format. -/
def phonePat2 : RE :=
  .seq .bound (.seq (opt (lit '0')) (.seq (reps digitRE 10) .bound))

/-- `\+?\d{1,3}[-.\s]?\(?\d{3,5}\)?[-.\s]?\d{3,5}[-.\s]?\d{3,5}` —
generic international format. -/
def phonePat3 : RE :=
  .seq (opt (lit '+')) (.seq (repRange digitRE 1 3) (.seq (opt sepRE)
    (.seq (opt (lit '(')) (.seq (repRange digitRE 3 5) (.seq (opt (lit ')'))
      (.seq (opt sepRE) (.seq (repRange digitRE 3 5)
        (.seq (opt sepRE) (repRange digitRE 3 5)))))))))

/-- The pattern list of `extract_phone`, in source order. -/
def phonePatterns : List RE := [phonePat1, phonePat2, phonePat3]

/-- One iteration of the `for pat in patterns` loop of `extract_phone`:
`if m and (first is None or m.start() < first.start()): first = m`. -/
def phoneStep (cs : List Char) (acc : Option (Nat × Nat)) (pat : RE) :
    Option (Nat × Nat) :=
  match reSearch pat cs with
  | none => acc
  | some (s, e) =>
    match acc with
    | none => some (s, e)
    | some (s0, e0) => if s < s0 then some (s, e) else some (s0, e0)

/-- The whole pattern loop: keep the search result with the strictly
smallest start offset, earlier patterns winning ties. -/
def bestPhoneMatch (pats : List RE) (cs : List Char) : Option (Nat × Nat) :=
  pats.foldl (phoneStep cs) none

/-- `ResumeParser.extract_phone` (lines 99-112): earliest-offset match
across the three patterns, sentinel `"Not found"` otherwise. -/
def extract_phone (cs : List Char) : String :=
  match bestPhoneMatch phonePatterns cs with
  | some (s, e) => String.mk ((cs.drop s).take (e - s))
  | none => "Not found"

/-! ### `parser.py` — `extract_skills` (lines 114-130) -/

/-- Python `str.title()` (ASCII model): a letter is uppercased after a
non-letter and lowercased after a letter. -/
def pyTitleAux : Bool → List Char → List Char
  | _, [] => []
  | prevAlpha, c :: cs =>
    if c.isAlpha then
      (if prevAlpha then c.toLower else c.toUpper) :: pyTitleAux true cs
    else c :: pyTitleAux false cs

/-- Python `s.title()`. -/
def pyTitle (s : String) : String := String.mk (pyTitleAux false s.toList)

/-- The compiled pattern `\b` + `re.escape(skill)` + `\b`: every character
of the (escaped) skill is a literal. -/
def skillRE (skill : String) : RE :=
  .seq .bound (.seq (skill.toList.foldr (fun c r => .seq (lit c) r) .eps) .bound)

/-- The catalog entries whose whole-word pattern is found in the lowered
text (the `if pat.search(text_lower)` filter of the loop). -/
def skillMatches (catalog : List String) (text : String) : List String :=
  catalog.filter (fun skill => (reSearch (skillRE skill) (pyLower text).toList).isSome)

/-- `seen = set(); uniq = [s for s in found if not (s in seen or seen.add(s))]`:
keep the first occurrence of each element. -/
def dedupFirst : List String → List String → List String
  | [], _ => []
  | x :: xs, seen =>
    if x ∈ seen then dedupFirst xs seen else x :: dedupFirst xs (x :: seen)

/-- The deduplicated, title-cased hit list `uniq` of `extract_skills`. -/
def skillHits (catalog : List String) (text : String) : List String :=
  dedupFirst ((skillMatches catalog text).map pyTitle) []

/-- `ResumeParser.extract_skills`: sentinel on an empty catalog, then the
whole-word search over the lowered text, title-casing, first-seen
deduplication and comma-joining, with the sentinel for an empty result. -/
def extract_skills (catalog : List String) (text : String) : String :=
  if catalog = [] then "No skills detected"
  else if skillHits catalog text = [] then "No skills detected"
  else String.intercalate ", " (skillHits catalog text)

/-! ### `parser.py` — section capture (lines 132-187) -/

/-- Python line-break characters recognised by `str.splitlines()`. -/
def isLineBreak (c : Char) : Bool :=
  c = '\n' || c = '\r' || c = '\x0b' || c = '\x0c' ||
  c = '\x1c' || c = '\x1d' || c = '\x1e' || c = '\x85' ||
  c = '\u2028' || c = '\u2029'

/-- Worker for `str.splitlines()`: `cur` holds the current line reversed;
`\r\n` counts as a single break; a trailing break adds no empty line. -/
def pySplitLinesGo : List Char → List Char → List String
  | [], cur => if cur.isEmpty then [] else [String.mk cur.reverse]
  | '\r' :: '\n' :: rest, cur => String.mk cur.reverse :: pySplitLinesGo rest []
  | c :: rest, cur =>
    if isLineBreak c then String.mk cur.reverse :: pySplitLinesGo rest []
    else pySplitLinesGo rest (c :: cur)

/-- Python `text.splitlines()`. -/
def pySplitLines (s : String) : List String := pySplitLinesGo s.toList []

/-- Python `needle in hay` on strings: substring containment. -/
def containsStr (hay needle : String) : Bool :=
  (List.range (hay.toList.length + 1)).any
    (fun i => needle.toList.isPrefixOf (hay.toList.drop i))

/-- The shared section-capture loop of `extract_education` /
`extract_experience`: once a heading keyword is seen (`capture`), break on
a stop-word line, append stripped non-empty lines, and stop once the
section holds more than `limit` lines. -/
def sectionLoop (kws stops : List String) (limit : Nat) :
    List String → Bool → List String → List String
  | [], _, sec => sec
  | line :: rest, capture, sec =>
    let low := pyLower line
    let capture' := capture || kws.any (fun k => containsStr low k)
    if capture' && stops.any (fun w => containsStr low w) then sec
    else if capture' && pyStrip line ≠ "" then
      if (sec ++ [pyStrip line]).length > limit then sec ++ [pyStrip line]
      else sectionLoop kws stops limit rest capture' (sec ++ [pyStrip line])
    else sectionLoop kws stops limit rest capture' sec

/-- Shared body of the two section extractors: run the loop over the
lines, then join with newlines or return the sentinel. -/
def extract_section (kws stops : List String) (limit : Nat) (text : String) : String :=
  match sectionLoop kws stops limit (pySplitLines text) false [] with
  | [] => "Not found"
  | sec => String.intercalate "\n" sec

/-- Education heading keywords (lines 134-138). -/
def educationKeywords : List String :=
  ["education", "academic", "qualification", "degree", "university",
   "college", "bachelor", "master", "phd", "b.tech", "m.tech", "mba",
   "bca", "mca"]

/-- Education stop words (line 139). -/
def educationStops : List String :=
  ["experience", "work history", "projects", "skills", "certifications"]

/-- Experience heading keywords (lines 163-166). -/
def experienceKeywords : List String :=
  ["experience", "work history", "employment",
   "professional experience", "work experience"]

/-- Experience stop words (line 167). -/
def experienceStops : List String :=
  ["education", "skills", "projects", "certifications"]

/-- `ResumeParser.extract_education` (limit constant 12 in
`if len(section) > 12: break`). -/
def extract_education (text : String) : String :=
  extract_section educationKeywords educationStops 12 text

/-- `ResumeParser.extract_experience` (limit constant 20). -/
def extract_experience (text : String) : String :=
  extract_section experienceKeywords experienceStops 20 text

/-- Modelled from the amended claim: the capture phase.  Process lines in
order starting at the heading line: a line containing a stop keyword ends
the capture; a line that is blank after stripping is skipped; any other
line is captured stripped, and the capture ends once `budget` lines have
been captured (the budget is one more than the source's `> limit`
threshold, since that check fires only after appending). -/
def specCapture (stops : List String) : Nat → List String → List String
  | _, [] => []
  | budget, line :: rest =>
    if stops.any (fun w => containsStr (pyLower line) w) then []
    else if pyStrip line = "" then specCapture stops budget rest
    else if budget ≤ 1 then [pyStrip line]
    else pyStrip line :: specCapture stops (budget - 1) rest

/-- Modelled from the amended claim: the whole section extractor.  Drop
the lines before the first one containing a heading keyword — if there is
none, the sentinel `"Not found"` results; otherwise capture at most
`limit + 1` lines from the heading line on and join them with newlines,
with the sentinel standing for an empty capture (as happens when the
heading line itself carries a stop keyword). -/
def specSection (kws stops : List String) (limit : Nat) (text : String) : String :=
  match (pySplitLines text).dropWhile
      (fun line => !(kws.any (fun k => containsStr (pyLower line) k))) with
  | [] => "Not found"
  | suffix =>
    match specCapture stops (limit + 1) suffix with
    | [] => "Not found"
    | sec => String.intercalate "\n" sec

/-! ## Verification -/

/-- `_compute_skill_match` never returns a negative value. -/
lemma compute_skill_match_nonneg (jt rs : List String) :
    0 ≤ compute_skill_match jt rs := by
  unfold compute_skill_match
  split_ifs
  · exact le_refl 0
  · exact le_refl 0
  · exact le_min (by norm_num) (le_max_left 0 _)

/-- `_compute_skill_match` never exceeds `1`. -/
lemma compute_skill_match_le_one (jt rs : List String) :
    compute_skill_match jt rs ≤ 1 := by
  unfold compute_skill_match
  split_ifs
  · norm_num
  · norm_num
  · exact min_le_left 1 _

/-- C5: for every candidate, `skill_match` equals the size of the
intersection of the candidate's normalized skill set with the normalized
prominent-job-terms set divided by the size of the latter, clamped to
`[0,1]` (normalization being lowercase plus trim), and it is `0` whenever
either normalized set is empty. -/
theorem skill_match_spec (job_terms resume_skills : List String) :
    compute_skill_match job_terms resume_skills =
      min 1 (max 0 (((normSet resume_skills ∩ normSet job_terms).card : ℚ) /
        ((normSet job_terms).card : ℚ)))
    ∧ ((normSet job_terms = ∅ ∨ normSet resume_skills = ∅) →
        compute_skill_match job_terms resume_skills = 0) := by
  unfold compute_skill_match
  constructor
  · split_ifs with h1 h2
    · rcases h1 with h | h <;> subst h <;> simp [normSet]
    · rw [h2]
      simp
    · rw [Finset.inter_comm]
  · intro h
    split_ifs with h1 h2
    · rfl
    · rfl
    · rcases h with h | h
      · exact absurd h h2
      · rw [h, Finset.inter_empty]
        simp

/-- Witness for C5 at a concrete input: a non-empty job-term list with an
empty skill list yields `skill_match = 0`. -/
theorem skill_match_spec_witness :
    compute_skill_match ["python"] [] = 0 :=
  (skill_match_spec ["python"] []).2 (Or.inr (by simp [normSet]))

/-- C10: the parser's empty-result sentinel `"No skills detected"`, when
stored as a candidate's `skills_list` string, is split into the one-element
list `["No skills detected"]` — treated as a non-empty pseudo-skill set by
the ranker (it can even intersect a job term) rather than as the empty-set
case. -/
theorem sentinel_becomes_pseudo_skill :
    parseSkills (.str "No skills detected") = ["No skills detected"]
    ∧ compute_skill_match ["no skills detected"]
        (parseSkills (.str "No skills detected")) = 1 := by
  have hp : parseSkills (.str "No skills detected") = ["No skills detected"] := by
    decide
  refine ⟨hp, ?_⟩
  rw [hp]
  unfold compute_skill_match
  rw [if_neg (by decide), if_neg (by decide)]
  rw [(by decide : normSet ["no skills detected"] ∩ normSet ["No skills detected"]
        = normSet ["no skills detected"])]
  rw [(by decide : (normSet ["no skills detected"]).card = 1)]
  norm_num

/-- C3: on an empty candidate list or an empty job description,
`rank_resumes` returns the empty sequence, whatever the other inputs and
whatever the vectorization would have done. -/
theorem rank_resumes_empty_guard (alpha : ℚ) (resumes : List ResumeInput)
    (jd : String) (vec : VecOutcome) (h : resumes = [] ∨ jd = "") :
    rank_resumes alpha resumes jd vec = [] := by
  have hpre : preRanked alpha resumes jd vec = [] := by
    unfold preRanked
    rw [if_pos h]
  cases vec with
  | fail => exact hpre
  | ok s t =>
    show (preRanked alpha resumes jd (.ok s t)).mergeSort rankLE = []
    rw [hpre]
    exact List.mergeSort_nil

/-- Witness for C3 at a concrete input: a non-empty candidate batch with
an empty job description. -/
theorem rank_resumes_empty_guard_witness :
    rank_resumes defaultAlpha [⟨1, "text", .noneF⟩] ""
      (.ok [1] ["python"]) = [] :=
  rank_resumes_empty_guard defaultAlpha [⟨1, "text", .noneF⟩] ""
    (.ok [1] ["python"]) (Or.inr rfl)

/-- C4: when the whole-batch vector-space construction fails, the caller
still gets one result per input candidate — same ids in input order — with
`final_score = 0` and both components zero. -/
theorem rank_resumes_fail_fallback (alpha : ℚ) (resumes : List ResumeInput)
    (jd : String) (hres : resumes ≠ []) (hjd : jd ≠ "") :
    rank_resumes alpha resumes jd .fail
      = resumes.map (fun r => ⟨r.id, 0, 0, 0⟩) := by
  show preRanked alpha resumes jd .fail = _
  unfold preRanked
  rw [if_neg (not_or.mpr ⟨hres, hjd⟩)]

/-- Witness for C4 at a concrete two-candidate batch. -/
theorem rank_resumes_fail_fallback_witness :
    rank_resumes defaultAlpha [⟨1, "a", .noneF⟩, ⟨2, "b", .str "python"⟩]
      "jd" .fail
      = [⟨1, "a", .noneF⟩, ⟨2, "b", .str "python"⟩].map
          (fun r : ResumeInput => (⟨r.id, 0, 0, 0⟩ : RankEntry)) :=
  rank_resumes_fail_fallback defaultAlpha
    [⟨1, "a", .noneF⟩, ⟨2, "b", .str "python"⟩] "jd"
    (by decide) (by decide)

/-- The `tfidf_scores[i] if i < len(tfidf_scores) else 0.0` lookup stays
in `[0,1]` when every score does. -/
lemma getD_unit_interval (l : List ℚ) (i : Nat)
    (h : ∀ s ∈ l, 0 ≤ s ∧ s ≤ 1) : 0 ≤ l.getD i 0 ∧ l.getD i 0 ≤ 1 := by
  rw [List.getD_eq_getElem?_getD]
  cases hg : l[i]? with
  | none => norm_num
  | some v =>
    have hv := h v (by
      have := List.getElem?_mem hg
      exact this)
    simpa using hv

/-- C1: for a non-empty job description and non-empty batch on which
vectorization succeeds (producing cosine scores, which lie in `[0,1]`),
every result satisfies `final_score = alpha * lexical + (1 - alpha) *
skill_match` with the default `alpha = 0.7`, and the final score and both
components lie in `[0,1]`. -/
theorem final_score_formula (resumes : List ResumeInput) (jd : String)
    (scores : List ℚ) (terms : List String)
    (hres : resumes ≠ []) (hjd : jd ≠ "")
    (hsc : ∀ s ∈ scores, 0 ≤ s ∧ s ≤ 1) :
    ∀ e ∈ rank_resumes defaultAlpha resumes jd (.ok scores terms),
      e.final = defaultAlpha * e.tfidf + (1 - defaultAlpha) * e.skill_match
      ∧ 0 ≤ e.final ∧ e.final ≤ 1
      ∧ 0 ≤ e.tfidf ∧ e.tfidf ≤ 1
      ∧ 0 ≤ e.skill_match ∧ e.skill_match ≤ 1 := by
  intro e he
  have he' : e ∈ preRanked defaultAlpha resumes jd (.ok scores terms) := by
    have : e ∈ (preRanked defaultAlpha resumes jd (.ok scores terms)).mergeSort rankLE := he
    exact List.mem_mergeSort.mp this
  unfold preRanked at he'
  rw [if_neg (not_or.mpr ⟨hres, hjd⟩)] at he'
  rw [List.mem_map] at he'
  obtain ⟨p, _, rfl⟩ := he'
  dsimp only
  have ht := getD_unit_interval scores p.1 hsc
  have hs0 := compute_skill_match_nonneg terms (parseSkills p.2.skills_list)
  have hs1 := compute_skill_match_le_one terms (parseSkills p.2.skills_list)
  set t := scores.getD p.1 0 with hts
  set s := compute_skill_match terms (parseSkills p.2.skills_list) with hss
  have ha : defaultAlpha = 7 / 10 := rfl
  have hf0 : 0 ≤ defaultAlpha * t + (1 - defaultAlpha) * s := by
    rw [ha]
    nlinarith [ht.1, hs0]
  rw [if_neg (not_lt.mpr hf0)]
  refine ⟨rfl, hf0, ?_, ht.1, ht.2, hs0, hs1⟩
  rw [ha]
  nlinarith [ht.2, hs1]

/-- The single scored entry of the C1 witness batch (cosine score `1`, no
job terms), written in the exact unreduced form the scoring loop builds. -/
def c1WitnessEntry : RankEntry :=
  ⟨1,
   if defaultAlpha * 1 + (1 - defaultAlpha) * 0 < 0 then 0
   else defaultAlpha * 1 + (1 - defaultAlpha) * 0,
   1, 0⟩

/-- Witness for C1 at a concrete input: a one-candidate batch with cosine
score `1` and an empty prominent-term list. -/
theorem final_score_formula_witness :
    c1WitnessEntry.final
        = defaultAlpha * c1WitnessEntry.tfidf
          + (1 - defaultAlpha) * c1WitnessEntry.skill_match
    ∧ 0 ≤ c1WitnessEntry.final ∧ c1WitnessEntry.final ≤ 1
    ∧ 0 ≤ c1WitnessEntry.tfidf ∧ c1WitnessEntry.tfidf ≤ 1
    ∧ 0 ≤ c1WitnessEntry.skill_match ∧ c1WitnessEntry.skill_match ≤ 1 :=
  final_score_formula [⟨1, "t", .noneF⟩] "jd" [1] []
    (by simp) (by simp)
    (by intro s hs; rw [List.mem_singleton] at hs; subst hs; norm_num)
    c1WitnessEntry
    (List.mem_mergeSort.mpr (List.mem_singleton_self c1WitnessEntry))

/-- The ids of the pre-sort scored list are exactly the input ids in
input order, whenever the job description is non-empty. -/
lemma preRanked_map_id (alpha : ℚ) (resumes : List ResumeInput)
    (jd : String) (vec : VecOutcome) (hjd : jd ≠ "") :
    (preRanked alpha resumes jd vec).map (fun e => e.id)
      = resumes.map (fun r => r.id) := by
  by_cases hres : resumes = []
  · subst hres
    unfold preRanked
    rw [if_pos (Or.inl rfl)]
    rfl
  · unfold preRanked
    rw [if_neg (not_or.mpr ⟨hres, hjd⟩)]
    cases vec with
    | fail => rw [List.map_map]; rfl
    | ok sc tm =>
      rw [List.map_map]
      show resumes.enum.map (fun p => p.2.id) = _
      rw [show (fun p : Nat × ResumeInput => p.2.id)
            = ((fun r : ResumeInput => r.id) ∘ Prod.snd) from rfl,
          ← List.map_map, List.enum_map_snd]

/-- `rankLE` is transitive. -/
lemma rankLE_trans : ∀ a b c : RankEntry, rankLE a b → rankLE b c → rankLE a c := by
  intro a b c h1 h2
  simp only [rankLE, decide_eq_true_eq] at *
  exact le_trans h2 h1

/-- `rankLE` is total. -/
lemma rankLE_total : ∀ a b : RankEntry, rankLE a b || rankLE b a := by
  intro a b
  simp only [rankLE]
  rcases le_total a.final b.final with h | h <;> simp [h]

/-- C2: for every batch (with a non-empty job description, the case where
ranking actually runs), the output carries exactly the input candidate
ids (as a permutation), is sorted by `final_score` descending, and is a
stable reordering of the scored input sequence: for every score value the
entries carrying it appear in their original input order. -/
theorem rank_output_order (alpha : ℚ) (resumes : List ResumeInput)
    (jd : String) (vec : VecOutcome) (hjd : jd ≠ "") :
    ((rank_resumes alpha resumes jd vec).map (fun e => e.id)).Perm
        (resumes.map (fun r => r.id))
    ∧ (rank_resumes alpha resumes jd vec).Pairwise
        (fun a b => b.final ≤ a.final)
    ∧ (∀ q : ℚ,
        (rank_resumes alpha resumes jd vec).filter
            (fun e => decide (e.final = q))
          = (preRanked alpha resumes jd vec).filter
              (fun e => decide (e.final = q))) := by
  cases vec with
  | fail =>
    have hrank : rank_resumes alpha resumes jd .fail
        = preRanked alpha resumes jd .fail := rfl
    refine ⟨?_, ?_, fun q => rfl⟩
    · rw [hrank, preRanked_map_id alpha resumes jd .fail hjd]
    · rw [hrank]
      by_cases hres : resumes = []
      · subst hres
        unfold preRanked
        rw [if_pos (Or.inl rfl)]
        exact List.Pairwise.nil
      · unfold preRanked
        rw [if_neg (not_or.mpr ⟨hres, hjd⟩)]
        show (resumes.map (fun r => (⟨r.id, 0, 0, 0⟩ : RankEntry))).Pairwise _
        rw [List.pairwise_map]
        exact List.pairwise_of_forall_mem_list (fun a _ b _ => le_refl 0)
  | ok sc tm =>
    have hrank : rank_resumes alpha resumes jd (.ok sc tm)
        = (preRanked alpha resumes jd (.ok sc tm)).mergeSort rankLE := rfl
    refine ⟨?_, ?_, ?_⟩
    · rw [hrank]
      exact ((List.mergeSort_perm _ rankLE).map _).trans
        (List.Perm.of_eq (preRanked_map_id alpha resumes jd (.ok sc tm) hjd))
    · rw [hrank]
      have hs := List.sorted_mergeSort rankLE_trans rankLE_total
        (preRanked alpha resumes jd (.ok sc tm))
      exact hs.imp (fun h => of_decide_eq_true h)
    · intro q
      rw [hrank]
      set pre := preRanked alpha resumes jd (.ok sc tm) with hpre
      set p : RankEntry → Bool := fun e => decide (e.final = q) with hp
      have hall : ∀ a ∈ pre.filter p, ∀ b ∈ pre.filter p, rankLE a b = true := by
        intro a ha b hb
        have ha' : a.final = q := by
          have := List.of_mem_filter ha
          simpa [hp] using this
        have hb' : b.final = q := by
          have := List.of_mem_filter hb
          simpa [hp] using this
        simp [rankLE, ha', hb']
      have hpair : (pre.filter p).Pairwise (fun a b => rankLE a b = true) :=
        List.pairwise_of_forall_mem_list hall
      have hsub : List.Sublist (pre.filter p) (pre.mergeSort rankLE) :=
        List.sublist_mergeSort rankLE_trans rankLE_total hpair
          (List.filter_sublist pre)
      have hfself : (pre.filter p).filter p = pre.filter p :=
        List.filter_eq_self.mpr (fun a ha => (List.mem_filter.mp ha).2)
      have hsub2 : List.Sublist (pre.filter p) ((pre.mergeSort rankLE).filter p) := by
        have h2 := hsub.filter p
        rwa [hfself] at h2
      have hlen : (pre.filter p).length = ((pre.mergeSort rankLE).filter p).length := by
        rw [← List.countP_eq_length_filter, ← List.countP_eq_length_filter]
        exact ((List.mergeSort_perm pre rankLE).countP_eq p).symm
      exact (hsub2.eq_of_length hlen).symm

/-- Witness for C2 at a concrete two-candidate batch with distinct scores. -/
theorem rank_output_order_witness :
    ((rank_resumes defaultAlpha [⟨1, "a", .noneF⟩, ⟨2, "b", .noneF⟩] "j"
        (.ok [0, 1] [])).map (fun e => e.id)).Perm
        ([⟨1, "a", .noneF⟩, ⟨2, "b", .noneF⟩].map
          (fun r : ResumeInput => r.id))
    ∧ (rank_resumes defaultAlpha [⟨1, "a", .noneF⟩, ⟨2, "b", .noneF⟩] "j"
        (.ok [0, 1] [])).Pairwise (fun a b => b.final ≤ a.final)
    ∧ (∀ q : ℚ,
        (rank_resumes defaultAlpha [⟨1, "a", .noneF⟩, ⟨2, "b", .noneF⟩] "j"
            (.ok [0, 1] [])).filter (fun e => decide (e.final = q))
          = (preRanked defaultAlpha [⟨1, "a", .noneF⟩, ⟨2, "b", .noneF⟩] "j"
              (.ok [0, 1] [])).filter (fun e => decide (e.final = q))) :=
  rank_output_order defaultAlpha [⟨1, "a", .noneF⟩, ⟨2, "b", .noneF⟩] "j"
    (.ok [0, 1] []) (by decide)

/-- `Char.ofNat` on a valid (small) code point keeps the numeric value. -/
lemma char_toNat_ofNat_lt {n : Nat} (h : n < 55296) : (Char.ofNat n).toNat = n := by
  rw [Char.ofNat, dif_pos (Or.inl (by omega))]
  simp [Char.ofNatAux, Char.toNat, UInt32.toNat, BitVec.toNat_ofNatLt]

/-- Lowercasing a character does not change whether it is whitespace. -/
lemma toLower_isWhitespace (c : Char) :
    (Char.toLower c).isWhitespace = c.isWhitespace := by
  simp only [Char.toLower]
  split
  · rename_i h
    have h1 : 65 ≤ Char.toNat c := h.1
    have hv : (Char.ofNat (Char.toNat c + 32)).toNat = Char.toNat c + 32 :=
      char_toNat_ofNat_lt (by omega)
    have t1 : Char.toNat ' ' = 32 := rfl
    have t2 : Char.toNat '\t' = 9 := rfl
    have t3 : Char.toNat '\x0d' = 13 := rfl
    have t4 : Char.toNat '\n' = 10 := rfl
    have hc : c.isWhitespace = false := by
      rcases Bool.eq_false_or_eq_true c.isWhitespace with ht | hf
      · exfalso
        simp only [Char.isWhitespace, Bool.or_eq_true, decide_eq_true_eq] at ht
        rcases ht with ((h' | h') | h') | h' <;> subst h' <;> revert h1 <;> decide
      · exact hf
    have hlow : (Char.ofNat (Char.toNat c + 32)).isWhitespace = false := by
      rcases Bool.eq_false_or_eq_true
          (Char.ofNat (Char.toNat c + 32)).isWhitespace with ht | hf
      · exfalso
        simp only [Char.isWhitespace, Bool.or_eq_true, decide_eq_true_eq] at ht
        rcases ht with ((h' | h') | h') | h' <;>
          · have h32 := congrArg Char.toNat h'
            rw [hv] at h32
            simp only [t1, t2, t3, t4] at h32
            omega
      · exact hf
    rw [hc, hlow]
  · rfl

/-- Stripping twice is the same as stripping once. -/
lemma trimChars_idem (cs : List Char) :
    trimChars (trimChars cs) = trimChars cs := by
  show ((trimChars cs).dropWhile Char.isWhitespace).rdropWhile Char.isWhitespace
      = trimChars cs
  have h1 : (trimChars cs).dropWhile Char.isWhitespace = trimChars cs := by
    rw [List.dropWhile_eq_self_iff]
    intro hl
    have hpre : List.IsPrefix (trimChars cs) (cs.dropWhile Char.isWhitespace) :=
      List.rdropWhile_prefix _ _
    have hy : (cs.dropWhile Char.isWhitespace).dropWhile Char.isWhitespace
        = cs.dropWhile Char.isWhitespace := List.dropWhile_idempotent _ _
    have hget := List.dropWhile_eq_self_iff.mp hy
    have hlen : 0 < (cs.dropWhile Char.isWhitespace).length :=
      lt_of_lt_of_le hl hpre.length_le
    have heq : (trimChars cs).get ⟨0, hl⟩
        = (cs.dropWhile Char.isWhitespace).get ⟨0, hlen⟩ := by
      simp only [List.get_eq_getElem]
      exact hpre.getElem hl
    rw [heq]
    exact hget hlen
  rw [h1]
  exact List.rdropWhile_idempotent _ _

/-- Stripping commutes with lowercasing. -/
lemma trimChars_map_toLower (cs : List Char) :
    trimChars (cs.map Char.toLower) = (trimChars cs).map Char.toLower := by
  have hp : (Char.isWhitespace ∘ Char.toLower) = Char.isWhitespace :=
    funext toLower_isWhitespace
  unfold trimChars
  rw [List.dropWhile_map, hp, ← List.map_reverse, List.dropWhile_map, hp,
    ← List.map_reverse]

/-- The element-wise normalization of `_compute_skill_match` gives the
same result on a pre-stripped skill as on the raw one. -/
lemma pyStrip_pyLower_pyStrip (s : String) :
    pyStrip (pyLower (pyStrip s)) = pyStrip (pyLower s) := by
  unfold pyStrip pyLower
  show String.mk (trimChars ((trimChars s.toList).map Char.toLower))
      = String.mk (trimChars (s.toList.map Char.toLower))
  rw [trimChars_map_toLower, trimChars_idem, ← trimChars_map_toLower]

/-- C9: the engine accepts `skills_list` as a sequence of strings or as a
single comma-delimited string; the string form is split on commas and
trimmed, and the two forms carrying the same skills produce the same
`skill_match` against any job-term list. -/
theorem skills_field_both_forms (ls : List String)
    (h : ∀ s ∈ ls, pyStrip s ≠ "" ∧ ',' ∉ s.toList) (jt : List String) :
    parseSkills (.str (joinComma ls)) = ls.map pyStrip
    ∧ compute_skill_match jt (parseSkills (.str (joinComma ls)))
        = compute_skill_match jt (parseSkills (.list ls)) := by
  have hne : ∀ s ∈ ls, s ≠ "" := by
    intro s hs heq
    apply (h s hs).1
    rw [heq]
    rfl
  have hlist : parseSkills (.list ls) = ls := by
    unfold parseSkills
    by_cases hnil : ls = []
    · subst hnil; rfl
    · show ((if ls = [] then [] else ls).filter (fun t => t ≠ "")) = ls
      rw [if_neg hnil]
      exact List.filter_eq_self.mpr (fun a ha => by simpa using hne a ha)
  by_cases hnil : ls = []
  · subst hnil
    have h1 : parseSkills (.str (joinComma [])) = [] := rfl
    exact ⟨h1, by rw [h1, hlist]⟩
  · have hxsne : ls.map String.toList ≠ [] := by simpa using hnil
    have hxscomma : ∀ l ∈ ls.map String.toList, ',' ∉ l := by
      intro l hl
      rw [List.mem_map] at hl
      obtain ⟨s, hs, rfl⟩ := hl
      exact (h s hs).2
    have hsplit : (List.intercalate [','] (ls.map String.toList)).splitOn ','
        = ls.map String.toList :=
      List.splitOn_intercalate (ls.map String.toList) ',' hxscomma hxsne
    have hjoin_ne : joinComma ls ≠ "" := by
      intro hj
      have hj' : List.intercalate [','] (ls.map String.toList) = [] :=
        congrArg String.toList hj
      rw [hj'] at hsplit
      have hcon : ls.map String.toList = [[]] := by
        rw [← hsplit]
        rfl
      cases ls with
      | nil => exact hnil rfl
      | cons a t =>
        simp only [List.map_cons, List.cons.injEq] at hcon
        have ha : a = "" := congrArg String.mk hcon.1
        exact hne a (List.mem_cons_self a t) ha
    have hps : pySplitComma (joinComma ls) = ls := by
      unfold pySplitComma joinComma
      show ((List.intercalate [','] (ls.map String.toList)).splitOn ',').map
          String.mk = ls
      rw [hsplit, List.map_map]
      exact List.map_id ls
    have hstr : parseSkills (.str (joinComma ls)) = ls.map pyStrip := by
      unfold parseSkills
      show ((if joinComma ls = "" then []
          else ((pySplitComma (joinComma ls)).map pyStrip).filter
            (fun t => t ≠ "")).filter (fun t => t ≠ "")) = ls.map pyStrip
      rw [if_neg hjoin_ne, hps]
      have hfa : ∀ a ∈ ls.map pyStrip, (decide (a ≠ "")) = true := by
        intro a ha
        rw [List.mem_map] at ha
        obtain ⟨s, hs, rfl⟩ := ha
        simpa using (h s hs).1
      rw [List.filter_eq_self.mpr hfa, List.filter_eq_self.mpr hfa]
    refine ⟨hstr, ?_⟩
    rw [hstr, hlist]
    have hnsk : normSet (ls.map pyStrip) = normSet ls := by
      unfold normSet
      have hf1 : (ls.map pyStrip).filter (fun t => t ≠ "") = ls.map pyStrip := by
        apply List.filter_eq_self.mpr
        intro a ha
        rw [List.mem_map] at ha
        obtain ⟨s, hs, rfl⟩ := ha
        simpa using (h s hs).1
      have hf2 : ls.filter (fun t => t ≠ "") = ls := by
        apply List.filter_eq_self.mpr
        intro a ha
        simpa using hne a ha
      rw [hf1, hf2, List.map_map]
      congr 1
      apply List.map_congr_left
      intro s _
      exact pyStrip_pyLower_pyStrip s
    unfold compute_skill_match
    by_cases hjt : jt = []
    · rw [if_pos (Or.inl hjt), if_pos (Or.inl hjt)]
    · rw [if_neg (not_or.mpr ⟨hjt, by simpa using hnil⟩),
        if_neg (not_or.mpr ⟨hjt, hnil⟩), hnsk]

/-- Witness for C9 at a concrete skill list and job-term list. -/
theorem skills_field_both_forms_witness :
    parseSkills (.str (joinComma ["python", "sql"]))
        = ["python", "sql"].map pyStrip
    ∧ compute_skill_match ["python"]
        (parseSkills (.str (joinComma ["python", "sql"])))
      = compute_skill_match ["python"] (parseSkills (.list ["python", "sql"])) :=
  skills_field_both_forms ["python", "sql"] (by decide) ["python"]

/-- Every successful run of the matcher hands the continuation a position
no smaller than the start. -/
lemma reMatch_reach : ∀ (re : RE) (cs : List Char) (i : Nat)
    (k : Nat → Option Nat) (r : Nat), reMatch re cs i k = some r →
    ∃ j, i ≤ j ∧ k j = some r := by
  intro re
  induction re with
  | cls p =>
    intro cs i k r h
    simp only [reMatch] at h
    cases hg : cs.get? i with
    | none => rw [hg] at h; simp at h
    | some c =>
      simp only [hg] at h
      by_cases hp : p c
      · rw [if_pos hp] at h
        exact ⟨i + 1, by omega, h⟩
      · rw [if_neg hp] at h
        simp at h
  | eps =>
    intro cs i k r h
    exact ⟨i, le_refl i, h⟩
  | seq a b iha ihb =>
    intro cs i k r h
    simp only [reMatch] at h
    obtain ⟨j, hij, hj⟩ := iha cs i _ r h
    obtain ⟨j2, hj2, hk⟩ := ihb cs j k r hj
    exact ⟨j2, le_trans hij hj2, hk⟩
  | alt a b iha ihb =>
    intro cs i k r h
    simp only [reMatch] at h
    cases ha : reMatch a cs i k with
    | some v =>
      rw [ha] at h
      have h2 : some v = some r := h
      exact iha cs i k r (ha.trans h2)
    | none =>
      rw [ha] at h
      have h2 : reMatch b cs i k = some r := h
      exact ihb cs i k r h2
  | bound =>
    intro cs i k r h
    simp only [reMatch] at h
    by_cases hb : isBoundary cs i
    · rw [if_pos hb] at h
      exact ⟨i, le_refl i, h⟩
    · rw [if_neg hb] at h
      simp at h

/-- A pattern that must consume a character can only match at a position
strictly inside the text. -/
lemma reMatch_consumes : ∀ (re : RE), consumes re = true →
    ∀ (cs : List Char) (i : Nat) (k : Nat → Option Nat) (r : Nat),
    reMatch re cs i k = some r → i < cs.length := by
  intro re
  induction re with
  | cls p =>
    intro _ cs i k r h
    simp only [reMatch] at h
    cases hg : cs.get? i with
    | none => rw [hg] at h; simp at h
    | some c =>
      by_contra hlen
      rw [List.get?_eq_none.mpr (by omega)] at hg
      simp at hg
  | eps => intro h; simp [consumes] at h
  | seq a b iha ihb =>
    intro hcons cs i k r h
    simp only [consumes, Bool.or_eq_true] at hcons
    simp only [reMatch] at h
    rcases hcons with hca | hcb
    · exact iha hca cs i _ r h
    · obtain ⟨j, hij, hj⟩ := reMatch_reach a cs i _ r h
      have := ihb hcb cs j k r hj
      omega
  | alt a b iha ihb =>
    intro hcons cs i k r h
    simp only [consumes, Bool.and_eq_true] at hcons
    simp only [reMatch] at h
    cases ha : reMatch a cs i k with
    | some v =>
      rw [ha] at h
      have h2 : some v = some r := h
      exact iha hcons.1 cs i k r (ha.trans h2)
    | none =>
      rw [ha] at h
      have h2 : reMatch b cs i k = some r := h
      exact ihb hcons.2 cs i k r h2
  | bound => intro h; simp [consumes] at h

/-- Soundness of the scan: a hit is a real match at or after the scan
start. -/
lemma searchAux_sound (re : RE) (cs : List Char) :
    ∀ (fuel i s e : Nat), searchAux re cs i fuel = some (s, e) →
      matchEnd re cs s = some e ∧ i ≤ s := by
  intro fuel
  induction fuel with
  | zero => intro i s e h; simp [searchAux] at h
  | succ n ih =>
    intro i s e h
    simp only [searchAux] at h
    cases hm : matchEnd re cs i with
    | some j =>
      rw [hm] at h
      simp only [Option.some.injEq, Prod.mk.injEq] at h
      obtain ⟨h1, h2⟩ := h
      subst h1
      subst h2
      exact ⟨hm, le_refl i⟩
    | none =>
      rw [hm] at h
      obtain ⟨h1, h2⟩ := ih (i + 1) s e h
      exact ⟨h1, by omega⟩

/-- Completeness of the scan: if anything matches in range, the scan
reports a hit no later than it. -/
lemma searchAux_complete (re : RE) (cs : List Char) :
    ∀ (fuel i j : Nat), i ≤ j → j < i + fuel →
      matchEnd re cs j ≠ none →
      ∃ s e, searchAux re cs i fuel = some (s, e) ∧ s ≤ j := by
  intro fuel
  induction fuel with
  | zero => intro i j h1 h2 _; omega
  | succ n ih =>
    intro i j h1 h2 h3
    simp only [searchAux]
    cases hm : matchEnd re cs i with
    | some e => exact ⟨i, e, rfl, h1⟩
    | none =>
      have hij : i ≠ j := by
        rintro rfl
        exact h3 hm
      obtain ⟨s, e, hs, hse⟩ := ih (i + 1) j (by omega) (by omega) h3
      exact ⟨s, e, hs, hse⟩

/-- `reSearch` only reports real matches. -/
lemma reSearch_sound (re : RE) (cs : List Char) (s e : Nat)
    (h : reSearch re cs = some (s, e)) : matchEnd re cs s = some e :=
  (searchAux_sound re cs _ 0 s e h).1

/-- `reSearch` finds a hit at or before any position that matches
(leftmost rule), for patterns that consume at least one character. -/
lemma reSearch_complete (re : RE) (cs : List Char) (hc : consumes re = true)
    (i j : Nat) (h : matchEnd re cs i = some j) :
    ∃ s e, reSearch re cs = some (s, e) ∧ s ≤ i := by
  have hlen : i < cs.length := reMatch_consumes re hc cs i some j h
  exact searchAux_complete re cs (cs.length + 1) 0 i (Nat.zero_le i)
    (by omega) (by rw [h]; simp)

/-- The pattern loop yields nothing iff the accumulator was empty and no
pattern's search hits. -/
lemma phone_foldl_eq_none (cs : List Char) :
    ∀ (pats : List RE) (acc : Option (Nat × Nat)),
      pats.foldl (phoneStep cs) acc = none ↔
        acc = none ∧ ∀ p ∈ pats, reSearch p cs = none := by
  intro pats
  induction pats with
  | nil =>
    intro acc
    simp
  | cons p ps ih =>
    intro acc
    rw [List.foldl_cons, ih]
    constructor
    · rintro ⟨h1, h2⟩
      unfold phoneStep at h1
      cases hr : reSearch p cs with
      | none =>
        rw [hr] at h1
        refine ⟨h1, fun q hq => ?_⟩
        rcases List.mem_cons.mp hq with rfl | hq'
        · exact hr
        · exact h2 q hq'
      | some v =>
        exfalso
        rw [hr] at h1
        obtain ⟨s, e⟩ := v
        cases acc with
        | none => simp at h1
        | some w =>
          obtain ⟨s0, e0⟩ := w
          by_cases hlt : s < s0 <;> simp [hlt] at h1
    · rintro ⟨h1, h2⟩
      subst h1
      constructor
      · unfold phoneStep
        rw [h2 p (List.mem_cons_self p ps)]
      · exact fun q hq => h2 q (List.mem_cons_of_mem p hq)

/-- Any hit of the pattern loop is a search result of one of the patterns
(or the incoming accumulator), and its start is minimal among all search
results and the accumulator. -/
lemma phone_foldl_eq_some (cs : List Char) :
    ∀ (pats : List RE) (acc : Option (Nat × Nat)) (s e : Nat),
      pats.foldl (phoneStep cs) acc = some (s, e) →
      ((∃ p ∈ pats, reSearch p cs = some (s, e)) ∨ acc = some (s, e))
      ∧ (∀ p ∈ pats, ∀ s' e', reSearch p cs = some (s', e') → s ≤ s')
      ∧ (∀ s0 e0, acc = some (s0, e0) → s ≤ s0) := by
  intro pats
  induction pats with
  | nil =>
    intro acc s e h
    simp only [List.foldl_nil] at h
    refine ⟨Or.inr h, by simp, fun s0 e0 ha => ?_⟩
    rw [h] at ha
    simp only [Option.some.injEq, Prod.mk.injEq] at ha
    omega
  | cons p ps ih =>
    intro acc s e h
    rw [List.foldl_cons] at h
    obtain ⟨hsrc, hmin, hacc⟩ := ih (phoneStep cs acc p) s e h
    have hstep : ∀ s' e', reSearch p cs = some (s', e') → s ≤ s' := by
      intro s' e' hr
      unfold phoneStep at hacc
      simp only [hr] at hacc
      cases acc with
      | none => exact hacc s' e' rfl
      | some w =>
        obtain ⟨s0, e0⟩ := w
        by_cases hlt : s' < s0
        · exact hacc s' e' (by simp [hlt])
        · have := hacc s0 e0 (by simp [hlt])
          omega
    refine ⟨?_, ?_, ?_⟩
    · rcases hsrc with ⟨q, hq, hrq⟩ | hstepEq
      · exact Or.inl ⟨q, List.mem_cons_of_mem p hq, hrq⟩
      · unfold phoneStep at hstepEq
        cases hr : reSearch p cs with
        | none =>
          simp only [hr] at hstepEq
          exact Or.inr hstepEq
        | some v =>
          simp only [hr] at hstepEq
          obtain ⟨s1, e1⟩ := v
          cases acc with
          | none =>
            have hq : some (s1, e1) = some (s, e) := hstepEq
            exact Or.inl ⟨p, List.mem_cons_self p ps, hr.trans hq⟩
          | some w =>
            obtain ⟨s0, e0⟩ := w
            by_cases hlt : s1 < s0
            · have hq : some (s1, e1) = some (s, e) := by
                rw [← hstepEq]
                simp [hlt]
              exact Or.inl ⟨p, List.mem_cons_self p ps, by rw [hr, hq]⟩
            · have hq : some (s0, e0) = some (s, e) := by
                rw [← hstepEq]
                simp [hlt]
              exact Or.inr hq
    · intro q hq s' e' hr
      rcases List.mem_cons.mp hq with rfl | hq'
      · exact hstep s' e' hr
      · exact hmin q hq' s' e' hr
    · intro s0 e0 ha
      subst ha
      unfold phoneStep at hacc
      cases hr : reSearch p cs with
      | none =>
        simp only [hr] at hacc
        exact hacc s0 e0 rfl
      | some v =>
        simp only [hr] at hacc
        obtain ⟨s1, e1⟩ := v
        by_cases hlt : s1 < s0
        · have := hacc s1 e1 (by simp [hlt])
          omega
        · exact hacc s0 e0 (by simp [hlt])

/-- Each of the three phone patterns must consume at least one character. -/
lemma phonePatterns_consume : ∀ p ∈ phonePatterns, consumes p = true := by
  decide

/-- C6: `extract_phone` returns the sentinel `"Not found"` when no phone
pattern matches anywhere in the text; otherwise it returns the matched
text of some pattern whose start offset is minimal across all matches of
all patterns at all positions — regardless of which pattern produced it or
the order patterns are tried. -/
theorem extract_phone_spec (cs : List Char) :
    ((∀ p ∈ phonePatterns, ∀ i, matchEnd p cs i = none) →
        extract_phone cs = "Not found")
    ∧ (∀ p ∈ phonePatterns, ∀ i j, matchEnd p cs i = some j →
        ∃ q s e, q ∈ phonePatterns ∧ matchEnd q cs s = some e
          ∧ (∀ q' ∈ phonePatterns, ∀ i' j', matchEnd q' cs i' = some j' → s ≤ i')
          ∧ extract_phone cs = String.mk ((cs.drop s).take (e - s))) := by
  constructor
  · intro hno
    unfold extract_phone
    have hbm : bestPhoneMatch phonePatterns cs = none := by
      unfold bestPhoneMatch
      rw [phone_foldl_eq_none]
      refine ⟨rfl, fun p hp => ?_⟩
      cases hr : reSearch p cs with
      | none => rfl
      | some v =>
        exfalso
        obtain ⟨s, e⟩ := v
        have := reSearch_sound p cs s e hr
        rw [hno p hp s] at this
        simp at this
    rw [hbm]
  · intro p hp i j hm
    obtain ⟨s1, e1, hr1, _⟩ :=
      reSearch_complete p cs (phonePatterns_consume p hp) i j hm
    cases hbm : bestPhoneMatch phonePatterns cs with
    | none =>
      exfalso
      have := (phone_foldl_eq_none cs phonePatterns none).mp hbm
      rw [this.2 p hp] at hr1
      simp at hr1
    | some v =>
      obtain ⟨bs, be⟩ := v
      obtain ⟨hsrc, hmin, _⟩ :=
        phone_foldl_eq_some cs phonePatterns none bs be hbm
      rcases hsrc with ⟨q, hq, hrq⟩ | habs
      · refine ⟨q, bs, be, hq, reSearch_sound q cs bs be hrq, ?_, ?_⟩
        · intro q' hq' i' j' hm'
          obtain ⟨s', e', hr', hs'⟩ :=
            reSearch_complete q' cs (phonePatterns_consume q' hq') i' j' hm'
          exact le_trans (hmin q' hq' s' e' hr') hs'
        · unfold extract_phone
          rw [hbm]
      · simp at habs

/-- Witness for C6: a concrete text containing one domestic-format phone
number, matched by the second pattern at offset `5`. -/
theorem extract_phone_spec_witness :
    ∃ q s e, q ∈ phonePatterns
      ∧ matchEnd q "call 9876543210 now".toList s = some e
      ∧ (∀ q' ∈ phonePatterns, ∀ i' j',
          matchEnd q' "call 9876543210 now".toList i' = some j' → s ≤ i')
      ∧ extract_phone "call 9876543210 now".toList
          = String.mk ((("call 9876543210 now".toList).drop s).take (e - s)) :=
  (extract_phone_spec "call 9876543210 now".toList).2 phonePat2
    (by unfold phonePatterns; exact List.mem_cons_of_mem _ (List.mem_cons_self _ _))
    5 15 (by decide)

/-- First-seen deduplication yields a sublist (preserves order). -/
lemma dedupFirst_sublist : ∀ (xs seen : List String),
    List.Sublist (dedupFirst xs seen) xs := by
  intro xs
  induction xs with
  | nil => intro seen; simp [dedupFirst]
  | cons x t ih =>
    intro seen
    unfold dedupFirst
    by_cases hx : x ∈ seen
    · rw [if_pos hx]
      exact (ih seen).cons x
    · rw [if_neg hx]
      exact (ih (x :: seen)).cons₂ x

/-- First-seen deduplication produces no duplicates and nothing already
seen. -/
lemma dedupFirst_nodup : ∀ (xs seen : List String),
    (dedupFirst xs seen).Nodup ∧ ∀ y ∈ dedupFirst xs seen, y ∉ seen := by
  intro xs
  induction xs with
  | nil => intro seen; exact ⟨List.nodup_nil, by simp [dedupFirst]⟩
  | cons x t ih =>
    intro seen
    unfold dedupFirst
    by_cases hx : x ∈ seen
    · rw [if_pos hx]
      exact ih seen
    · rw [if_neg hx]
      obtain ⟨hnd, hns⟩ := ih (x :: seen)
      constructor
      · rw [List.nodup_cons]
        exact ⟨fun hmem => (hns x hmem) (List.mem_cons_self x seen), hnd⟩
      · intro y hy
        rcases List.mem_cons.mp hy with rfl | hy'
        · exact hx
        · intro hyseen
          exact hns y hy' (List.mem_cons_of_mem x hyseen)

/-- First-seen deduplication loses nothing: every input element ends up in
the output or was already seen. -/
lemma dedupFirst_complete : ∀ (xs seen : List String) (y : String),
    y ∈ xs → y ∈ dedupFirst xs seen ∨ y ∈ seen := by
  intro xs
  induction xs with
  | nil => intro seen y hy; simp at hy
  | cons x t ih =>
    intro seen y hy
    unfold dedupFirst
    rcases List.mem_cons.mp hy with rfl | hy'
    · by_cases hx : y ∈ seen
      · exact Or.inr hx
      · rw [if_neg hx]
        exact Or.inl (List.mem_cons_self y _)
    · by_cases hx : x ∈ seen
      · rw [if_pos hx]
        exact ih seen y hy'
      · rw [if_neg hx]
        rcases ih (x :: seen) y hy' with h1 | h1
        · exact Or.inl (List.mem_cons_of_mem x h1)
        · rcases List.mem_cons.mp h1 with rfl | h2
          · exact Or.inl (List.mem_cons_self y _)
          · exact Or.inr h2

/-- C7: `extract_skills` emits, for each catalog entry whose whole-word
pattern is found in the lowered text, that entry title-cased; the emitted
list has no duplicates and preserves catalog order (first seen); the
sentinel `"No skills detected"` is returned when the catalog is empty or
nothing matches; and on the concrete scenario (catalog
`["python", "sql"]`, the pipeline sentence) the result is
`"Python, Sql"`. -/
theorem extract_skills_spec (catalog : List String) (text : String) :
    (skillHits catalog text).Nodup
    ∧ List.Sublist (skillHits catalog text)
        ((skillMatches catalog text).map pyTitle)
    ∧ (∀ s ∈ catalog, (reSearch (skillRE s) (pyLower text).toList).isSome →
        pyTitle s ∈ skillHits catalog text)
    ∧ ((catalog = [] ∨
          ∀ s ∈ catalog, reSearch (skillRE s) (pyLower text).toList = none) →
        extract_skills catalog text = "No skills detected")
    ∧ extract_skills ["python", "sql"]
        "Built pipelines using Python and SQL daily." = "Python, Sql" := by
  refine ⟨(dedupFirst_nodup _ []).1, dedupFirst_sublist _ [], ?_, ?_, ?_⟩
  · intro s hs hsome
    have hmem : pyTitle s ∈ (skillMatches catalog text).map pyTitle := by
      apply List.mem_map_of_mem
      unfold skillMatches
      rw [List.mem_filter]
      exact ⟨hs, by simpa using hsome⟩
    rcases dedupFirst_complete _ [] (pyTitle s) hmem with h | h
    · exact h
    · simp at h
  · intro hcase
    unfold extract_skills
    rcases hcase with hnil | hnone
    · rw [if_pos hnil]
    · by_cases hnil : catalog = []
      · rw [if_pos hnil]
      · rw [if_neg hnil]
        have hsm : skillMatches catalog text = [] := by
          unfold skillMatches
          rw [List.filter_eq_nil_iff]
          intro a ha
          rw [hnone a ha]
          simp
        have hh : skillHits catalog text = [] := by
          unfold skillHits
          rw [hsm]
          rfl
        rw [if_pos hh]
  · decide

/-- Witness for C7: on the concrete scenario, the matching catalog entry
`"python"` is emitted title-cased. -/
theorem extract_skills_spec_witness :
    pyTitle "python" ∈ skillHits ["python", "sql"]
      "Built pipelines using Python and SQL daily." :=
  (extract_skills_spec ["python", "sql"]
    "Built pipelines using Python and SQL daily.").2.2.1 "python"
    (by decide) (by decide)

/-- The head of a `dropWhile` result does not satisfy the predicate. -/
lemma dropWhile_head_false {α : Type} (p : α → Bool) :
    ∀ (l : List α) (a : α) (t : List α), l.dropWhile p = a :: t → p a = false := by
  intro l
  induction l with
  | nil => intro a t h; simp at h
  | cons b bs ih =>
    intro a t h
    rw [List.dropWhile_cons] at h
    by_cases hb : p b
    · rw [if_pos hb] at h
      exact ih a t h
    · rw [if_neg hb] at h
      injection h with h1 _
      subst h1
      cases hpb : p b with
      | false => rfl
      | true => exact absurd hpb hb

/-- Before any heading has been seen, the loop just skips lines without a
heading keyword: it behaves as if started at the first heading line. -/
lemma sectionLoop_seek (kws stops : List String) (limit : Nat) :
    ∀ lines : List String,
      sectionLoop kws stops limit lines false []
        = sectionLoop kws stops limit
            (lines.dropWhile
              (fun line => !(kws.any (fun k => containsStr (pyLower line) k))))
            false [] := by
  intro lines
  induction lines with
  | nil => rfl
  | cons line rest ih =>
    cases hh : kws.any (fun k => containsStr (pyLower line) k) with
    | true =>
      rw [List.dropWhile_cons, if_neg (by simp [hh])]
    | false =>
      have hstep : sectionLoop kws stops limit (line :: rest) false []
          = sectionLoop kws stops limit rest false [] := by
        simp only [sectionLoop, hh, Bool.or_false, Bool.false_and,
          Bool.false_eq_true, if_false, ne_eq]
      rw [hstep, ih, List.dropWhile_cons, if_pos (by simp [hh])]

/-- Once a heading line stands at the head, starting with the capture flag
off is the same as starting with it on. -/
lemma sectionLoop_heading_start (kws stops : List String) (limit : Nat)
    (line : String) (rest : List String)
    (hh : kws.any (fun k => containsStr (pyLower line) k) = true) :
    sectionLoop kws stops limit (line :: rest) false []
      = sectionLoop kws stops limit (line :: rest) true [] := by
  simp only [sectionLoop, hh, Bool.false_or, Bool.true_or]

/-- With the capture flag on, the loop appends exactly what the
claim-level capture model produces from the remaining lines, given the
remaining budget `limit + 1 - sec.length`. -/
lemma sectionLoop_capture (kws stops : List String) (limit : Nat) :
    ∀ (lines : List String) (sec : List String), sec.length ≤ limit →
      sectionLoop kws stops limit lines true sec
        = sec ++ specCapture stops (limit + 1 - sec.length) lines := by
  intro lines
  induction lines with
  | nil =>
    intro sec _
    simp [sectionLoop, specCapture]
  | cons line rest ih =>
    intro sec h
    simp only [sectionLoop, specCapture, Bool.true_or, Bool.true_and]
    by_cases hstop : (stops.any fun w => containsStr (pyLower line) w) = true
    · rw [if_pos hstop, if_pos hstop]
      simp
    · rw [if_neg hstop, if_neg hstop]
      by_cases hblank : pyStrip line = ""
      · rw [if_neg (by simp [hblank]), if_pos hblank]
        exact ih sec h
      · rw [if_pos (by simp [hblank]), if_neg hblank]
        by_cases hfull : (sec ++ [pyStrip line]).length > limit
        · have hlen : sec.length = limit := by
            simp only [List.length_append, List.length_singleton] at hfull
            omega
          rw [if_pos hfull, if_pos (by omega : limit + 1 - sec.length ≤ 1)]
        · have hlt : sec.length + 1 ≤ limit := by
            simp only [List.length_append, List.length_singleton] at hfull
            omega
          rw [if_neg hfull, if_neg (by omega : ¬ limit + 1 - sec.length ≤ 1)]
          rw [ih (sec ++ [pyStrip line]) (by simpa using hlt)]
          rw [List.append_assoc, List.singleton_append]
          have heq : limit + 1 - (sec ++ [pyStrip line]).length
              = limit + 1 - sec.length - 1 := by
            simp only [List.length_append, List.length_singleton]
            omega
          rw [heq]

/-- The two section extractors coincide with the claim-level model. -/
lemma extract_section_eq_spec (kws stops : List String) (limit : Nat)
    (text : String) :
    extract_section kws stops limit text = specSection kws stops limit text := by
  unfold extract_section specSection
  rw [sectionLoop_seek]
  cases hsuf : (pySplitLines text).dropWhile
      (fun line => !(kws.any (fun k => containsStr (pyLower line) k))) with
  | nil => rfl
  | cons hd tl =>
    have hh : kws.any (fun k => containsStr (pyLower hd) k) = true := by
      have := dropWhile_head_false _ _ _ _ hsuf
      simpa using this
    rw [sectionLoop_heading_start kws stops limit hd tl hh,
      sectionLoop_capture kws stops limit (hd :: tl) [] (by simp)]
    simp only [List.length_nil, Nat.sub_zero, List.nil_append]

/-- C8 (amended): `extract_education` and `extract_experience` behave
exactly as the claim-level capture model `specSection`: scan to the first
line containing a heading keyword (`"Not found"` when there is none), then
capture that heading line and the subsequent non-empty lines — each
stripped of surrounding whitespace, blank lines skipped — until the first
stop-keyword line or until the capture exceeds the threshold (12 for
education, 20 for experience), so at most 13 resp. 21 captured lines,
whichever comes first; `"Not found"` also results when nothing is captured
(heading line itself carrying a stop keyword). -/
theorem extract_sections_spec (text : String) :
    extract_education text = specSection educationKeywords educationStops 12 text
    ∧ extract_experience text
        = specSection experienceKeywords experienceStops 20 text :=
  ⟨extract_section_eq_spec educationKeywords educationStops 12 text,
   extract_section_eq_spec experienceKeywords experienceStops 20 text⟩

/-- C8 counterexample: the claim says at most 12 captured lines for
education and verbatim capture, but on this input the section has 13
lines (the heading line is captured too) and the line `" l1 "` is
captured stripped. -/
theorem extract_education_thirteen_lines :
    extract_education
        "education\n l1 \nl2\nl3\nl4\nl5\nl6\nl7\nl8\nl9\nl10\nl11\nl12\nl13"
      = "education\nl1\nl2\nl3\nl4\nl5\nl6\nl7\nl8\nl9\nl10\nl11\nl12"
    ∧ (pySplitLines (extract_education
        "education\n l1 \nl2\nl3\nl4\nl5\nl6\nl7\nl8\nl9\nl10\nl11\nl12\nl13")).length
      = 13 := by
  constructor
  · decide
  · decide
